import Mathlib

/-!
# Verification of the WordGenerator text-generation core

A shallow embedding of `src/lib/WordGenerator.js` (and the thin handler in
`src/api/generate.js`).  All randomness in the source comes from
`Math.random()`; here a random stream is a function `Rng : Nat → Nat` together
with a position counter that every draw advances by one.  A call
`Math.floor(Math.random() * n)` (with `n > 0`) is modelled as `σ k % n`,
which produces exactly the reachable values.

The `while` loop in `injectFormatting` need not terminate on an adversarial
stream, so the functions that can reach it take a fuel parameter and return
`Option`; `none` means the fuel ran out while the loop still wanted to spin.
-/

/-- A random stream: the `k`-th draw of the source's `Math.random()`,
already scaled to a natural number. -/
abbrev Rng := Nat → Nat

/-- Modelled from the spec: the vocabulary files `src/languages/latin.js` and
`src/languages/medieval.js` are not present under `src/`.  Per spec §3 a
vocabulary is a non-empty ordered immutable sequence of word strings; this
placeholder list stands for the latin vocabulary. -/
def latinWords : List String :=
  ["alea", "iacta", "ergo", "cogito", "ludus"]

/-- Modelled from the spec: placeholder for the medieval vocabulary of
`src/languages/medieval.js` (missing from `src/`), a non-empty ordered
immutable sequence of word strings. -/
def medievalWords : List String :=
  ["knight", "castle", "quest", "dragon"]

/-- The configuration record of the generator, after the constructor's merge
of caller overrides onto the defaults (`WordGenerator.js` lines 32-41).
`maxWords : Option Nat` keeps the default `null` distinct from a numeric
value, mirroring the JS field. -/
structure Settings where
  sentenceMin : Nat
  sentenceMax : Nat
  paragraphMin : Nat
  paragraphMax : Nat
  commaRate : Nat
  injectStyling : Bool
  maxFormattedWords : Nat
  wordList : String
  outputFormat : String
  maxWords : Option Nat
deriving DecidableEq, Repr

/-- The `defaultSettings` object of the constructor. -/
def defaultSettings : Settings :=
  { sentenceMin := 2, sentenceMax := 15
    paragraphMin := 3, paragraphMax := 10
    commaRate := 10
    injectStyling := false
    maxFormattedWords := 3
    wordList := "medieval"
    outputFormat := "string"
    maxWords := none }

/-- `chooseWordList` (lines 53-64): exact match on the known names, `"both"`
concatenates with latin first, anything else falls back to the medieval
list. -/
def chooseWordList (type : String) : List String :=
  match type with
  | "latin" => latinWords
  | "medieval" => medievalWords
  | "both" => latinWords ++ medievalWords
  | _ => medievalWords

/-- The vocabulary the constructor resolves and stores (`this.wordList`,
line 44). -/
def resolvedList (g : Settings) : List String :=
  chooseWordList g.wordList

/-- `getRandomInt(min, max)` (line 72): `Math.floor(Math.random() *
(max - min + 1) + min)`, one draw consumed.  Returns the value and the
advanced stream position. -/
def getRandomInt (σ : Rng) (lo hi k : Nat) : Nat × Nat :=
  (lo + σ k % (hi - lo + 1), k + 1)

/-- `capitalizeFirstLetter` (line 79): uppercase the first character, keep
the rest. -/
def capitalizeFirstLetter (s : String) : String :=
  match s.data with
  | [] => s
  | c :: cs => String.mk (c.toUpper :: cs)

/-- `getWord` (line 85): a uniform draw from the resolved vocabulary. -/
def getWord (g : Settings) (σ : Rng) (k : Nat) : String × Nat :=
  let wl := resolvedList g
  let (i, k1) := getRandomInt σ 0 (wl.length - 1) k
  (wl.getD i "", k1)

/-- `formatWord` (lines 92-106): pick one of `['bold', 'italic', 'link']`
uniformly and wrap the word in the corresponding markup. -/
def formatWord (σ : Rng) (word : String) (k : Nat) : String × Nat :=
  let formatType := ["bold", "italic", "link"].getD (σ k % 3) ""
  (match formatType with
   | "bold" => "<strong>" ++ word ++ "</strong>"
   | "italic" => "<em>" ++ word ++ "</em>"
   | "link" => "<a href=\"#\">" ++ word ++ "</a>"
   | _ => word,
   k + 1)

/-- The index-selection `while` loop of `injectFormatting` (lines 118-121):
keep drawing `Math.floor(Math.random() * words.length)` and inserting into
the set until the set holds `maxFormattedWords` indices or covers every
token.  The set is modelled as an insertion-ordered duplicate-free list
(JS `Set` iterates in insertion order).  `none` means the fuel ran out with
the loop condition still true. -/
def selectIndexes (σ : Rng) (len maxFW : Nat) :
    Nat → List Nat → Nat → Option (List Nat × Nat)
  | 0, acc, k =>
    if acc.length < maxFW ∧ acc.length < len then none else some (acc, k)
  | fuel + 1, acc, k =>
    if acc.length < maxFW ∧ acc.length < len then
      let idx := σ k % len
      selectIndexes σ len maxFW fuel
        (if idx ∈ acc then acc else acc ++ [idx]) (k + 1)
    else some (acc, k)

/-- JS `String.prototype.split(sep)` for a single-character separator, on
character lists: splitting the empty string yields one empty piece, and
every separator occurrence starts a new piece. -/
def splitChars (sep : Char) : List Char → List (List Char)
  | [] => [[]]
  | c :: cs =>
    let rest := splitChars sep cs
    if c = sep then [] :: rest
    else
      match rest with
      | [] => [[c]]
      | g :: gs => (c :: g) :: gs

/-- `sentence.split(' ')` (line 114): JS split on a single space. -/
def jsSplit (s : String) : List String :=
  (splitChars ' ' s.data).map String.mk

/-- The `for (const index of uniqueIndexes)` loop (lines 123-125): replace
each selected position by its formatted form, in insertion order. -/
def applyFormats (σ : Rng) : List String → List Nat → Nat → List String × Nat
  | ws, [], k => (ws, k)
  | ws, i :: rest, k =>
    let (fw, k1) := formatWord σ (ws.getD i "") k
    applyFormats σ (ws.set i fw) rest k1

/-- `injectFormatting` (lines 113-128): split on spaces, select distinct
indices, format them, rejoin with single spaces. -/
def injectFormatting (fuel : Nat) (g : Settings) (sentence : String)
    (σ : Rng) (k : Nat) : Option (String × Nat) :=
  let words := jsSplit sentence
  match selectIndexes σ words.length g.maxFormattedWords fuel [] k with
  | none => none
  | some (idxs, k1) =>
    let (words2, k2) := applyFormats σ words idxs k1
    some (String.intercalate " " words2, k2)

/-- The conditional of line 137: `this.settings.maxWords ?
Math.min(draw, maxWords) : draw`.  JS truthiness makes both `null` and `0`
skip the clamp. -/
def effWordsCount (maxWords : Option Nat) (d : Nat) : Nat :=
  match maxWords with
  | none => d
  | some m => if m = 0 then d else Nat.min d m

/-- Line 137 as a whole: draw the sentence length from
`[sentenceMin, sentenceMax]` and apply the optional clamp. -/
def drawWordsCount (g : Settings) (σ : Rng) (k : Nat) : Nat × Nat :=
  let (d, k1) := getRandomInt σ g.sentenceMin g.sentenceMax k
  (effWordsCount g.maxWords d, k1)

/-- The word-emitting `for` loop of `getSentence` (lines 140-149), recursing
on the number of words still to emit.  The last word receives `"."` (and no
comma draw happens); every other word draws from `[0, commaRate]` and
receives `", "` on zero, `" "` otherwise. -/
def sentenceLoop (g : Settings) (σ : Rng) : Nat → String → Nat → String × Nat
  | 0, acc, k => (acc, k)
  | r + 1, acc, k =>
    let (w, k1) := getWord g σ k
    if r = 0 then
      sentenceLoop g σ r (acc ++ w ++ ".") k1
    else
      let (c, k2) := getRandomInt σ 0 g.commaRate k1
      sentenceLoop g σ r (acc ++ w ++ (if c = 0 then ", " else " ")) k2

/-- `getSentence` (lines 135-158): draw the word count, build the sentence
(optionally seeded with the literal `"Lorem ipsum "`), capitalize the first
letter, and run the styling injector when `injectStyling` is on. -/
def getSentence (fuel : Nat) (g : Settings) (lorem : Bool) (σ : Rng)
    (k : Nat) : Option (String × Nat) :=
  let (c, k1) := drawWordsCount g σ k
  let s0 : String := if lorem then "Lorem ipsum " else ""
  let (s1, k2) := sentenceLoop g σ c s0 k1
  let s2 := capitalizeFirstLetter s1
  if g.injectStyling then injectFormatting fuel g s2 σ k2 else some (s2, k2)

/-- The sentence-accumulating `for` loop of `getParagraph` (lines 171-177):
after the first sentence the Lorem flag is forced false, and a single space
separates consecutive sentences (none after the last). -/
def paragraphLoop (fuel : Nat) (g : Settings) (σ : Rng) :
    Nat → Bool → String → Nat → Option (String × Nat)
  | 0, _, acc, k => some (acc, k)
  | r + 1, lorem, acc, k =>
    match getSentence fuel g lorem σ k with
    | none => none
    | some (s, k1) =>
      paragraphLoop fuel g σ r false (acc ++ s ++ (if r = 0 then "" else " ")) k1

/-- `getParagraph` (lines 166-180): draw the sentence count from
`[paragraphMin, paragraphMax]`, build the sentences, and wrap the result in
the literal tag exactly when `wrapWith` is non-empty (JS truthiness of a
string). -/
def getParagraph (fuel : Nat) (g : Settings) (lorem : Bool)
    (wrapWith : String) (σ : Rng) (k : Nat) : Option (String × Nat) :=
  let (n, k1) := getRandomInt σ g.paragraphMin g.paragraphMax k
  match paragraphLoop fuel g σ n lorem "" k1 with
  | none => none
  | some (p, k2) =>
    some (if wrapWith = "" then p
          else "<" ++ wrapWith ++ ">" ++ p ++ "</" ++ wrapWith ++ ">", k2)

/-- The three shapes `getOutput` can produce; a JS object with numeric keys
serializes with string keys, so the hash is a list of string-keyed pairs. -/
inductive Output where
  | str : String → Output
  | arr : List String → Output
  | hash : List (String × String) → Output
deriving DecidableEq, Repr

/-- The `reduce((acc, word, index) => { acc[index] = word; ... })` pattern of
lines 196-197: pair every word of the (already sliced) array with its
zero-based position, rendered as the string key JS objects use. -/
def hashOf (l : List String) : List (String × String) :=
  l.enum.map (fun p => (toString p.1, p.2))

/-- JS `Array.prototype.slice(0, e)`: a negative end counts from the end of
the array, a non-negative end is clamped to the length. -/
def jsSlice (l : List String) (e : Int) : List String :=
  if e < 0 then l.take (((l.length : Int) + e).toNat) else l.take e.toNat

/-- `getOutput` (lines 188-204): `'array'` and `'hash'` statically slice the
stored vocabulary (full list when `limit === 0`); every other format string
falls through to one paragraph with defaults (no Lorem prefix, no wrap). -/
def getOutput (fuel : Nat) (g : Settings) (format : String) (limit : Int)
    (σ : Rng) (k : Nat) : Option (Output × Nat) :=
  match format with
  | "array" =>
    some (.arr (if limit = 0 then resolvedList g else jsSlice (resolvedList g) limit), k)
  | "hash" =>
    some (.hash (if limit = 0 then hashOf (resolvedList g)
                 else hashOf (jsSlice (resolvedList g) limit)), k)
  | _ =>
    match getParagraph fuel g false "" σ k with
    | none => none
    | some (p, k1) => some (.str p, k1)

/-- The generator the HTTP handler constructs (`src/api/generate.js`
line 12): `new WordGenerator({ wordList })`, i.e. defaults with only the
vocabulary name overridden. -/
def handlerSettings (wl : String) : Settings :=
  { defaultSettings with wordList := wl }

/-! ## Spec-side definitions

These follow the wording of the specification / claims and are compared with
the source-translated definitions above. -/

/-- Spec wording (§4.3 step 3): the separator following a word — `"."` for
the last word (`none` records that no comma draw happened), otherwise `", "`
exactly when the recorded draw is `0` and `" "` otherwise. -/
def sepOf : Option Nat → String
  | none => "."
  | some d => if d = 0 then ", " else " "

/-- Spec wording: the sequence of (word, comma-draw) pairs a sentence of a
given word count emits, drawn from the same stream positions the source
loop uses; the last word records no draw. -/
def sentenceChunks (g : Settings) (σ : Rng) :
    Nat → Nat → List (String × Option Nat) × Nat
  | 0, k => ([], k)
  | 1, k =>
    let (w, k1) := getWord g σ k
    ([(w, none)], k1)
  | r + 2, k =>
    let (w, k1) := getWord g σ k
    let (c, k2) := getRandomInt σ 0 g.commaRate k1
    let (rest, k3) := sentenceChunks g σ (r + 1) k2
    ((w, some c) :: rest, k3)

/-- Flatten a chunk list: each word immediately followed by its single
separator. -/
def concatChunks : List (String × Option Nat) → String
  | [] => ""
  | p :: rest => p.1 ++ sepOf p.2 ++ concatChunks rest

/-- Spec wording (§4.5): the list of sentences a paragraph composes — the
Lorem flag is passed only to the first sentence and forced false
thereafter. -/
def sentencesList (fuel : Nat) (g : Settings) (σ : Rng) :
    Nat → Bool → Nat → Option (List String × Nat)
  | 0, _, k => some ([], k)
  | n + 1, lorem, k =>
    match getSentence fuel g lorem σ k with
    | none => none
    | some (s, k1) =>
      match sentencesList fuel g σ n false k1 with
      | none => none
      | some (rest, k2) => some (s :: rest, k2)

/-- Spec wording (§4.5): join with a single space, no trailing space after
the last sentence. -/
def joinSpace : List String → String
  | [] => ""
  | [s] => s
  | s :: rest => s ++ " " ++ joinSpace rest

/-- Spec wording (§4.4): the three markup shapes a wrapped token may take. -/
def isFormOf (w fw : String) : Prop :=
  fw = "<strong>" ++ w ++ "</strong>" ∨
  fw = "<em>" ++ w ++ "</em>" ∨
  fw = "<a href=\"#\">" ++ w ++ "</a>"

instance (w fw : String) : Decidable (isFormOf w fw) := by
  unfold isFormOf
  infer_instance

/-- A vocabulary word suitable for capitalization claims: non-empty and
starting with an ASCII lowercase letter. -/
def goodWord (w : String) : Bool :=
  match w.data with
  | [] => false
  | c :: _ => c.isLower

/-- The sentence ends with a period. -/
def endsInPeriod (s : String) : Prop :=
  s.data.getLast? = some '.'

instance (s : String) : Decidable (endsInPeriod s) := by
  unfold endsInPeriod
  infer_instance

/-- The first character of the string is an uppercase letter. -/
def startsUpper (s : String) : Bool :=
  match s.data with
  | [] => false
  | c :: _ => c.isUpper

/-- The index-selection loop exits for some amount of fuel. -/
def selTerminates (σ : Rng) (len maxFW k : Nat) : Prop :=
  ∃ fuel idxs k', selectIndexes σ len maxFW fuel [] k = some (idxs, k')

/-- C5 counterexample configuration: a sentence of exactly three words with
a configured hard cap of `0`. -/
def c5cfg : Settings :=
  { defaultSettings with sentenceMin := 3, sentenceMax := 3, maxWords := some 0 }

/-- C2 counterexample configuration: `sentence.min = sentence.max = 0`. -/
def c2cfg : Settings :=
  { defaultSettings with sentenceMin := 0, sentenceMax := 0 }

/-- C8 witness configuration: a single styled word. -/
def c8cfg : Settings := { defaultSettings with maxFormattedWords := 1 }

/-! ## Helper lemmas -/

theorem toNat_ofNat_valid (n : Nat) (h : n.isValidChar) :
    (Char.ofNat n).toNat = n := by
  unfold Char.ofNat
  rw [dif_pos h]
  simp [Char.ofNatAux, Char.toNat, UInt32.toNat]

theorem isUpper_toUpper_of_isLower (c : Char) (h : c.isLower = true) :
    (c.toUpper).isUpper = true := by
  simp only [Char.isLower, ge_iff_le, Bool.and_eq_true, decide_eq_true_eq] at h
  obtain ⟨h1, h2⟩ := h
  have hn1 : (97 : Nat) ≤ c.toNat := h1
  have hn2 : c.toNat ≤ 122 := h2
  unfold Char.toUpper
  rw [if_pos ⟨hn1, hn2⟩]
  have hv : (c.toNat - 32).isValidChar := by
    left
    omega
  have key : (Char.ofNat (c.toNat - 32)).toNat = c.toNat - 32 :=
    toNat_ofNat_valid _ hv
  simp only [Char.isUpper, ge_iff_le, Bool.and_eq_true, decide_eq_true_eq]
  constructor
  · show (65 : Nat) ≤ (Char.ofNat (c.toNat - 32)).toNat
    omega
  · show (Char.ofNat (c.toNat - 32)).toNat ≤ 90
    omega

/-- Every name resolves to one of the three vocabularies. -/
theorem chooseWordList_cases (t : String) :
    chooseWordList t = latinWords ∨ chooseWordList t = medievalWords ∨
      chooseWordList t = latinWords ++ medievalWords := by
  unfold chooseWordList
  split
  · exact Or.inl rfl
  · exact Or.inr (Or.inl rfl)
  · exact Or.inr (Or.inr rfl)
  · exact Or.inr (Or.inl rfl)

theorem resolvedList_ne_nil (g : Settings) : resolvedList g ≠ [] := by
  unfold resolvedList
  rcases chooseWordList_cases g.wordList with h | h | h <;> rw [h] <;> decide

theorem resolvedList_good (g : Settings) :
    ∀ w ∈ resolvedList g, goodWord w = true := by
  unfold resolvedList
  rcases chooseWordList_cases g.wordList with h | h | h <;> rw [h] <;> decide

/-- The source's sentence loop produces exactly the flattened chunk list:
each emitted word is followed by exactly one separator, as recorded by
`sentenceChunks`. -/
theorem sentenceLoop_eq_chunks (g : Settings) (σ : Rng) :
    ∀ r acc k,
      sentenceLoop g σ r acc k =
        (acc ++ concatChunks (sentenceChunks g σ r k).1,
         (sentenceChunks g σ r k).2) := by
  intro r
  induction r using Nat.twoStepInduction with
  | zero =>
    intro acc k
    simp [sentenceLoop, sentenceChunks, concatChunks, String.append_empty]
  | one =>
    intro acc k
    simp [sentenceLoop, sentenceChunks, concatChunks, sepOf, getWord,
      getRandomInt, String.append_assoc, String.append_empty]
  | more r _ ih2 =>
    intro acc k
    have step : sentenceLoop g σ (r + 1 + 1) acc k =
        sentenceLoop g σ (r + 1)
          (acc ++ (getWord g σ k).1 ++
            (if (getRandomInt σ 0 g.commaRate (getWord g σ k).2).1 = 0
             then ", " else " "))
          (getRandomInt σ 0 g.commaRate (getWord g σ k).2).2 := rfl
    rw [step, ih2]
    simp only [sentenceChunks, concatChunks, sepOf]
    simp [getWord, getRandomInt, String.append_assoc]

/-- A sentence of `r` words yields exactly `r` chunks. -/
theorem sentenceChunks_length (g : Settings) (σ : Rng) :
    ∀ r k, (sentenceChunks g σ r k).1.length = r := by
  intro r
  induction r using Nat.twoStepInduction with
  | zero => intro k; simp [sentenceChunks]
  | one => intro k; simp [sentenceChunks]
  | more r _ ih2 =>
    intro k
    simp only [sentenceChunks]
    simpa using ih2 _

/-- The final chunk of a non-empty sentence carries no comma draw: its
separator is the period. -/
theorem sentenceChunks_getLast (g : Settings) (σ : Rng) :
    ∀ r k, 1 ≤ r →
      ∃ w, ((sentenceChunks g σ r k).1).getLast? = some (w, none) := by
  intro r
  induction r using Nat.twoStepInduction with
  | zero => intro k h; omega
  | one =>
    intro k _
    refine ⟨(getWord g σ k).1, ?_⟩
    simp [sentenceChunks]
  | more r _ ih2 =>
    intro k _
    simp only [sentenceChunks]
    obtain ⟨w, hw⟩ := ih2 ((getRandomInt σ 0 g.commaRate (getWord g σ k).2).2) (by omega)
    refine ⟨w, ?_⟩
    have hne : (sentenceChunks g σ (r + 1)
        ((getRandomInt σ 0 g.commaRate (getWord g σ k).2).2)).1 ≠ [] := by
      intro hnil
      have := sentenceChunks_length g σ (r + 1)
        ((getRandomInt σ 0 g.commaRate (getWord g σ k).2).2)
      rw [hnil] at this
      simp at this
    rcases hl : (sentenceChunks g σ (r + 1)
        ((getRandomInt σ 0 g.commaRate (getWord g σ k).2).2)).1 with _ | ⟨b, l⟩
    · exact absurd hl hne
    · rw [hl] at hw
      simpa [List.getLast?_cons_cons] using hw

/-- Every chunk before the last carries a comma draw. -/
theorem sentenceChunks_dropLast (g : Settings) (σ : Rng) :
    ∀ r k, ∀ p ∈ ((sentenceChunks g σ r k).1).dropLast, p.2.isSome = true := by
  intro r
  induction r using Nat.twoStepInduction with
  | zero => intro k p hp; simp [sentenceChunks] at hp
  | one => intro k p hp; simp [sentenceChunks] at hp
  | more r _ ih2 =>
    intro k p hp
    simp only [sentenceChunks] at hp
    set k2 := (getRandomInt σ 0 g.commaRate (getWord g σ k).2).2 with hk2
    have hne : (sentenceChunks g σ (r + 1) k2).1 ≠ [] := by
      intro hnil
      have := sentenceChunks_length g σ (r + 1) k2
      rw [hnil] at this
      simp at this
    rcases hl : (sentenceChunks g σ (r + 1) k2).1 with _ | ⟨b, l⟩
    · exact absurd hl hne
    · rw [hl] at hp
      simp only [List.dropLast_cons₂, List.mem_cons] at hp
      rcases hp with hp | hp
      · rw [hp]
        rfl
      · have := ih2 k2 p
        rw [hl] at this
        exact this hp

/-- Anything the sentence loop produces extends its accumulator. -/
theorem sentenceLoop_data_prefix (g : Settings) (σ : Rng) :
    ∀ r acc k, ∃ t, ((sentenceLoop g σ r acc k).1).data = acc.data ++ t := by
  intro r
  induction r using Nat.twoStepInduction with
  | zero => intro acc k; exact ⟨[], by simp [sentenceLoop]⟩
  | one =>
    intro acc k
    refine ⟨(getWord g σ k).1.data ++ ['.'], ?_⟩
    have step : (sentenceLoop g σ 1 acc k).1 = acc ++ (getWord g σ k).1 ++ "." := rfl
    rw [step]
    simp [String.data_append]
  | more r _ ih2 =>
    intro acc k
    have step : sentenceLoop g σ (r + 1 + 1) acc k =
        sentenceLoop g σ (r + 1)
          (acc ++ (getWord g σ k).1 ++
            (if (getRandomInt σ 0 g.commaRate (getWord g σ k).2).1 = 0
             then ", " else " "))
          (getRandomInt σ 0 g.commaRate (getWord g σ k).2).2 := rfl
    obtain ⟨t, ht⟩ := ih2
      (acc ++ (getWord g σ k).1 ++
        (if (getRandomInt σ 0 g.commaRate (getWord g σ k).2).1 = 0
         then ", " else " "))
      (getRandomInt σ 0 g.commaRate (getWord g σ k).2).2
    refine ⟨(getWord g σ k).1.data ++
      (if (getRandomInt σ 0 g.commaRate (getWord g σ k).2).1 = 0
       then ", " else " ").data ++ t, ?_⟩
    rw [step, ht]
    simp [String.data_append]

/-- A non-empty run of the sentence loop ends with a period. -/
theorem sentenceLoop_endsInPeriod (g : Settings) (σ : Rng) :
    ∀ r acc k, endsInPeriod ((sentenceLoop g σ (r + 1) acc k).1) := by
  intro r
  induction r with
  | zero =>
    intro acc k
    show endsInPeriod ((sentenceLoop g σ 1 acc k).1)
    have step : (sentenceLoop g σ 1 acc k).1 = acc ++ (getWord g σ k).1 ++ "." := rfl
    rw [step]
    unfold endsInPeriod
    simp [String.data_append, List.getLast?_concat]
  | succ r ih =>
    intro acc k
    have step : sentenceLoop g σ (r + 1 + 1) acc k =
        sentenceLoop g σ (r + 1)
          (acc ++ (getWord g σ k).1 ++
            (if (getRandomInt σ 0 g.commaRate (getWord g σ k).2).1 = 0
             then ", " else " "))
          (getRandomInt σ 0 g.commaRate (getWord g σ k).2).2 := rfl
    rw [step]
    exact ih _ _

/-- A non-empty run of the sentence loop starts, past its accumulator, with
the first drawn word. -/
theorem sentenceLoop_first_word (g : Settings) (σ : Rng) :
    ∀ r acc k, ∃ t, ((sentenceLoop g σ (r + 1) acc k).1).data =
      acc.data ++ (getWord g σ k).1.data ++ t := by
  intro r acc k
  cases r with
  | zero =>
    refine ⟨['.'], ?_⟩
    have step : (sentenceLoop g σ 1 acc k).1 = acc ++ (getWord g σ k).1 ++ "." := rfl
    rw [step]
    simp [String.data_append]
  | succ r =>
    have step : sentenceLoop g σ (r + 1 + 1) acc k =
        sentenceLoop g σ (r + 1)
          (acc ++ (getWord g σ k).1 ++
            (if (getRandomInt σ 0 g.commaRate (getWord g σ k).2).1 = 0
             then ", " else " "))
          (getRandomInt σ 0 g.commaRate (getWord g σ k).2).2 := rfl
    obtain ⟨t, ht⟩ := sentenceLoop_data_prefix g σ (r + 1)
      (acc ++ (getWord g σ k).1 ++
        (if (getRandomInt σ 0 g.commaRate (getWord g σ k).2).1 = 0
         then ", " else " "))
      (getRandomInt σ 0 g.commaRate (getWord g σ k).2).2
    refine ⟨(if (getRandomInt σ 0 g.commaRate (getWord g σ k).2).1 = 0
       then ", " else " ").data ++ t, ?_⟩
    rw [step, ht]
    simp [String.data_append]

/-- Every drawn word belongs to the resolved vocabulary. -/
theorem getWord_mem (g : Settings) (σ : Rng) (k : Nat) :
    (getWord g σ k).1 ∈ resolvedList g := by
  have hne := resolvedList_ne_nil g
  have hlen : 0 < (resolvedList g).length := List.length_pos.mpr hne
  have hidx : 0 + σ k % ((resolvedList g).length - 1 + 1) < (resolvedList g).length := by
    have h1 : (resolvedList g).length - 1 + 1 = (resolvedList g).length := by omega
    rw [h1]
    simpa using Nat.mod_lt _ hlen
  show (resolvedList g).getD (0 + σ k % ((resolvedList g).length - 1 + 1)) "" ∈
    resolvedList g
  rw [List.getD_eq_getElem?_getD, List.getElem?_eq_getElem hidx]
  simp only [Option.getD_some]
  exact List.getElem_mem hidx

theorem isUpper_toUpper_of_isUpper (c : Char) (h : c.isUpper = true) :
    (c.toUpper).isUpper = true := by
  simp only [Char.isUpper, ge_iff_le, Bool.and_eq_true, decide_eq_true_eq] at h
  obtain ⟨h1, h2⟩ := h
  have hn1 : (65 : Nat) ≤ c.toNat := h1
  have hn2 : c.toNat ≤ 90 := h2
  unfold Char.toUpper
  rw [if_neg (by omega)]
  simp only [Char.isUpper, ge_iff_le, Bool.and_eq_true, decide_eq_true_eq]
  exact ⟨hn1, hn2⟩

/-- Capitalizing preserves a trailing period. -/
theorem capitalize_endsInPeriod (s : String) (h : endsInPeriod s) :
    endsInPeriod (capitalizeFirstLetter s) := by
  unfold endsInPeriod at h ⊢
  unfold capitalizeFirstLetter
  rcases hd : s.data with _ | ⟨c, cs⟩
  · rw [hd] at h
    simp at h
  · rw [hd] at h
    show (String.mk (c.toUpper :: cs)).data.getLast? = some '.'
    show (c.toUpper :: cs).getLast? = some '.'
    rcases hcs : cs with _ | ⟨b, l⟩
    · rw [hcs] at h
      simp only [List.getLast?_singleton, Option.some.injEq] at h
      subst h
      simp
    · rw [hcs] at h
      rw [List.getLast?_cons_cons] at h ⊢
      exact h

/-- Capitalizing a string whose first character is a lowercase or uppercase
ASCII letter yields a string starting with an uppercase letter. -/
theorem capitalize_startsUpper (s : String) (c : Char) (cs : List Char)
    (hd : s.data = c :: cs) (hc : c.isLower = true ∨ c.isUpper = true) :
    startsUpper (capitalizeFirstLetter s) = true := by
  unfold capitalizeFirstLetter
  rw [hd]
  show startsUpper (String.mk (c.toUpper :: cs)) = true
  unfold startsUpper
  show (c.toUpper).isUpper = true
  rcases hc with hc | hc
  · exact isUpper_toUpper_of_isLower c hc
  · exact isUpper_toUpper_of_isUpper c hc

/-- A string that ends in a period contains a period. -/
theorem mem_of_endsInPeriod (s : String) (h : endsInPeriod s) :
    '.' ∈ s.data := by
  unfold endsInPeriod at h
  have hx : '.' ∈ s.data.getLast? := by
    rw [h]
    rfl
  obtain ⟨hne, heq⟩ := List.mem_getLast?_eq_getLast hx
  rw [heq]
  exact List.getLast_mem hne

/-- A string that ends in a period is non-empty. -/
theorem ne_empty_of_endsInPeriod (s : String) (h : endsInPeriod s) :
    s ≠ "" := by
  intro he
  subst he
  simp [endsInPeriod] at h

/-- The drawn word count is at least one whenever `sentenceMin ≥ 1`
(any configured cap is either ignored when zero or at least one). -/
theorem drawWordsCount_pos (g : Settings) (σ : Rng) (k : Nat)
    (h1 : 1 ≤ g.sentenceMin) : 1 ≤ (drawWordsCount g σ k).1 := by
  unfold drawWordsCount getRandomInt effWordsCount
  rcases g.maxWords with _ | m
  · simpa using Nat.le_add_right_of_le h1
  · by_cases hm : m = 0
    · simpa [hm] using Nat.le_add_right_of_le h1
    · simp only [hm, if_false]
      have : 1 ≤ g.sentenceMin + σ k % (g.sentenceMax - g.sentenceMin + 1) :=
        Nat.le_add_right_of_le h1
      simp only [Nat.min_def]
      split <;> omega

/-- With styling off, `getSentence` always succeeds and the result ends in a
period and starts with an uppercase letter. -/
theorem getSentence_ok (fuel : Nat) (g : Settings) (lorem : Bool) (σ : Rng)
    (k : Nat)
    (h1 : 1 ≤ g.sentenceMin) (h2 : g.sentenceMin ≤ g.sentenceMax)
    (h3 : g.injectStyling = false)
    (hw : ∀ w ∈ resolvedList g, goodWord w = true) :
    ∃ out k2, getSentence fuel g lorem σ k = some (out, k2)
      ∧ endsInPeriod out ∧ startsUpper out = true := by
  have hc := drawWordsCount_pos g σ k h1
  obtain ⟨r, hr⟩ : ∃ r, (drawWordsCount g σ k).1 = r + 1 :=
    ⟨(drawWordsCount g σ k).1 - 1, by omega⟩
  have hrun : getSentence fuel g lorem σ k =
      some (capitalizeFirstLetter
              (sentenceLoop g σ (drawWordsCount g σ k).1
                (if lorem then "Lorem ipsum " else "") (k + 1)).1,
            (sentenceLoop g σ (drawWordsCount g σ k).1
              (if lorem then "Lorem ipsum " else "") (k + 1)).2) := by
    unfold getSentence
    rw [h3]
    rfl
  refine ⟨_, _, hrun, ?_, ?_⟩
  · rw [hr]
    exact capitalize_endsInPeriod _ (sentenceLoop_endsInPeriod g σ r _ _)
  · cases lorem with
    | true =>
      show startsUpper (capitalizeFirstLetter
        (sentenceLoop g σ (drawWordsCount g σ k).1 "Lorem ipsum " (k + 1)).1) = true
      obtain ⟨t, ht⟩ := sentenceLoop_data_prefix g σ (drawWordsCount g σ k).1
        "Lorem ipsum " (k + 1)
      have hL : ("Lorem ipsum " : String).data = 'L' :: "orem ipsum ".data := rfl
      rw [hL] at ht
      exact capitalize_startsUpper _ 'L' _ (by rw [ht]; rfl) (Or.inr (by decide))
    | false =>
      show startsUpper (capitalizeFirstLetter
        (sentenceLoop g σ (drawWordsCount g σ k).1 "" (k + 1)).1) = true
      rw [hr]
      obtain ⟨t, ht⟩ := sentenceLoop_first_word g σ r "" (k + 1)
      have hm := getWord_mem g σ (k + 1)
      have hg := hw _ hm
      rcases hwd : (getWord g σ (k + 1)).1.data with _ | ⟨c, cs⟩
      · unfold goodWord at hg
        rw [hwd] at hg
        simp at hg
      · unfold goodWord at hg
        rw [hwd] at hg
        rw [hwd] at ht
        refine capitalize_startsUpper _ c (cs ++ t) ?_ (Or.inl hg)
        rw [ht]
        rfl

/-- With styling off, the paragraph loop always succeeds, extends its
accumulator, and (when at least one sentence is composed) the extension
contains a period. -/
theorem paragraphLoop_ok (fuel : Nat) (g : Settings) (σ : Rng)
    (h1 : 1 ≤ g.sentenceMin) (h2 : g.sentenceMin ≤ g.sentenceMax)
    (h3 : g.injectStyling = false)
    (hw : ∀ w ∈ resolvedList g, goodWord w = true) :
    ∀ n lorem acc k, ∃ p k1,
      paragraphLoop fuel g σ n lorem acc k = some (p, k1)
      ∧ ∃ t, p.data = acc.data ++ t ∧ (1 ≤ n → '.' ∈ t) := by
  intro n
  induction n with
  | zero =>
    intro lorem acc k
    exact ⟨acc, k, rfl, [], by simp, by omega⟩
  | succ n ih =>
    intro lorem acc k
    obtain ⟨s, k1, hs, hper, _⟩ := getSentence_ok fuel g lorem σ k h1 h2 h3 hw
    obtain ⟨p, k2, hp, t, hdata, _⟩ :=
      ih false (acc ++ s ++ (if n = 0 then "" else " ")) k1
    refine ⟨p, k2, ?_, ?_⟩
    · show paragraphLoop fuel g σ (n + 1) lorem acc k = some (p, k2)
      simp only [paragraphLoop]
      rw [hs]
      exact hp
    · refine ⟨s.data ++ (if n = 0 then "" else " ").data ++ t, ?_, ?_⟩
      · rw [hdata]
        simp [String.data_append]
      · intro _
        have hdot := mem_of_endsInPeriod s hper
        simp [hdot]

/-- The spec-side sentence list has exactly the drawn number of sentences. -/
theorem sentencesList_length (fuel : Nat) (g : Settings) (σ : Rng) :
    ∀ n lorem k ss k2,
      sentencesList fuel g σ n lorem k = some (ss, k2) → ss.length = n := by
  intro n
  induction n with
  | zero =>
    intro lorem k ss k2 h
    simp only [sentencesList, Option.some.injEq, Prod.mk.injEq] at h
    rw [← h.1]
    rfl
  | succ n ih =>
    intro lorem k ss k2 h
    simp only [sentencesList] at h
    split at h
    · exact absurd h (by simp)
    · split at h
      · exact absurd h (by simp)
      · rename_i s k1 _ rest k3 hsl
        simp only [Option.some.injEq, Prod.mk.injEq] at h
        obtain ⟨hss, _⟩ := h
        rw [← hss]
        simp [ih false _ rest k3 hsl]

/-- The source's paragraph loop equals the spec-side description: compose
the sentences (Lorem flag only on the first), then join them with single
spaces and no trailing space. -/
theorem paragraphLoop_eq_sentencesList (fuel : Nat) (g : Settings) (σ : Rng) :
    ∀ n lorem acc k,
      paragraphLoop fuel g σ n lorem acc k =
        (sentencesList fuel g σ n lorem k).map
          (fun p => (acc ++ joinSpace p.1, p.2)) := by
  intro n
  induction n with
  | zero =>
    intro lorem acc k
    simp [paragraphLoop, sentencesList, joinSpace, String.append_empty]
  | succ n ih =>
    intro lorem acc k
    simp only [paragraphLoop, sentencesList]
    cases hgs : getSentence fuel g lorem σ k with
    | none => simp
    | some v =>
      obtain ⟨s, k1⟩ := v
      simp only []
      rw [ih false (acc ++ s ++ (if n = 0 then "" else " ")) k1]
      cases hsl : sentencesList fuel g σ n false k1 with
      | none => simp
      | some w =>
        obtain ⟨rest, k3⟩ := w
        have hlen : rest.length = n := sentencesList_length fuel g σ n false k1 rest k3 hsl
        simp only [Option.map_some]
        cases n with
        | zero =>
          have : rest = [] := List.length_eq_zero.mp hlen
          subst this
          simp [joinSpace, String.append_empty]
        | succ m =>
          rcases rest with _ | ⟨b, l⟩
          · simp at hlen
          · show some (acc ++ s ++ " " ++ joinSpace (b :: l), k3) =
              some (acc ++ joinSpace (s :: b :: l), k3)
            have hj : joinSpace (s :: b :: l) = s ++ " " ++ joinSpace (b :: l) := rfl
            rw [hj]
            simp [String.append_assoc]

/-- Invariants of the index-selection loop: whenever it exits normally, the
selected indices are distinct, in range, and exactly
`min maxFormattedWords len` many. -/
theorem selectIndexes_ok (σ : Rng) (len maxFW : Nat) :
    ∀ fuel acc k idxs k',
      acc.Nodup → (∀ i ∈ acc, i < len) →
      acc.length ≤ maxFW → acc.length ≤ len →
      selectIndexes σ len maxFW fuel acc k = some (idxs, k') →
      idxs.Nodup ∧ (∀ i ∈ idxs, i < len) ∧
        idxs.length = min maxFW len := by
  intro fuel
  induction fuel with
  | zero =>
    intro acc k idxs k' hnd hlt hm hl h
    unfold selectIndexes at h
    split at h
    · exact absurd h (by simp)
    · rename_i hcond
      simp only [Option.some.injEq, Prod.mk.injEq] at h
      obtain ⟨h1, _⟩ := h
      subst h1
      rw [Decidable.not_and_iff_or_not, Nat.not_lt, Nat.not_lt] at hcond
      rcases hcond with hc | hc <;> exact ⟨hnd, hlt, by omega⟩
  | succ fuel ih =>
    intro acc k idxs k' hnd hlt hm hl h
    unfold selectIndexes at h
    split at h
    · rename_i hcond
      have hlen0 : 0 < len := Nat.lt_of_le_of_lt (Nat.zero_le _) hcond.2
      have h2 : selectIndexes σ len maxFW fuel
          (if σ k % len ∈ acc then acc else acc ++ [σ k % len]) (k + 1) =
          some (idxs, k') := h
      by_cases hin : σ k % len ∈ acc
      · rw [if_pos hin] at h2
        exact ih acc (k + 1) idxs k' hnd hlt hm hl h2
      · rw [if_neg hin] at h2
        refine ih (acc ++ [σ k % len]) (k + 1) idxs k' ?_ ?_ ?_ ?_ h2
        · simp [List.nodup_append, hnd, hin]
        · intro i hi
          rcases List.mem_append.mp hi with hi | hi
          · exact hlt i hi
          · simp only [List.mem_singleton] at hi
            subst hi
            exact Nat.mod_lt _ hlen0
        · simp only [List.length_append, List.length_singleton]
          omega
        · simp only [List.length_append, List.length_singleton]
          omega
    · rename_i hcond
      simp only [Option.some.injEq, Prod.mk.injEq] at h
      obtain ⟨h1, _⟩ := h
      subst h1
      rw [Decidable.not_and_iff_or_not, Nat.not_lt, Nat.not_lt] at hcond
      rcases hcond with hc | hc <;> exact ⟨hnd, hlt, by omega⟩

/-- `formatWord` consumes one draw and always yields one of the three
markup shapes around the untouched word. -/
theorem formatWord_isFormOf (σ : Rng) (w : String) (k : Nat) :
    isFormOf w (formatWord σ w k).1 ∧ (formatWord σ w k).2 = k + 1 := by
  have h3 : σ k % 3 = 0 ∨ σ k % 3 = 1 ∨ σ k % 3 = 2 := by omega
  rcases h3 with h | h | h <;>
    simp only [formatWord, isFormOf, h] <;>
    simp [List.getD]

/-- Applying formats along a duplicate-free index list preserves the token
count, leaves unselected positions untouched, and wraps each selected
in-range position in one of the three markup shapes around its original
token. -/
theorem applyFormats_ok (σ : Rng) :
    ∀ idxs ws k, idxs.Nodup →
      ((applyFormats σ ws idxs k).1.length = ws.length) ∧
      (∀ j, j ∉ idxs →
        (applyFormats σ ws idxs k).1[j]? = ws[j]?) ∧
      (∀ i ∈ idxs, i < ws.length →
        ∃ w fw, ws[i]? = some w ∧
          (applyFormats σ ws idxs k).1[i]? = some fw ∧ isFormOf w fw) := by
  intro idxs
  induction idxs with
  | nil =>
    intro ws k _
    exact ⟨rfl, fun j _ => rfl, fun i hi => absurd hi (List.not_mem_nil i)⟩
  | cons i rest ih =>
    intro ws k hnd
    have hni : i ∉ rest := (List.nodup_cons.mp hnd).1
    have hnd' : rest.Nodup := (List.nodup_cons.mp hnd).2
    have hstep : applyFormats σ ws (i :: rest) k =
        applyFormats σ (ws.set i (formatWord σ (ws.getD i "") k).1) rest (k + 1) :=
      rfl
    obtain ⟨hlen, hother, hsel⟩ :=
      ih (ws.set i (formatWord σ (ws.getD i "") k).1) (k + 1) hnd'
    refine ⟨?_, ?_, ?_⟩
    · rw [hstep, hlen, List.length_set]
    · intro j hj
      have hji : j ≠ i := fun he => hj (he ▸ List.mem_cons_self i rest)
      have hjr : j ∉ rest := fun hr => hj (List.mem_cons_of_mem i hr)
      rw [hstep, hother j hjr]
      exact List.getElem?_set_ne (Ne.symm hji)
    · intro i2 hi2 hlt
      rcases List.mem_cons.mp hi2 with he | hr
      · subst he
        refine ⟨ws[i2], (formatWord σ (ws.getD i2 "") k).1, ?_, ?_, ?_⟩
        · exact List.getElem?_eq_getElem hlt
        · rw [hstep, hother i2 hni]
          exact List.getElem?_set_self (by rw [List.length_set] at *; omega)
        · have hgd : ws.getD i2 "" = ws[i2] := by
            rw [List.getD_eq_getElem?_getD, List.getElem?_eq_getElem hlt]
            rfl
          rw [← hgd]
          exact (formatWord_isFormOf σ (ws.getD i2 "") k).1
      · have hne : i ≠ i2 := fun he => hni (he ▸ hr)
        obtain ⟨w, fw, hw, hres, hform⟩ :=
          hsel i2 hr (by rw [List.length_set]; exact hlt)
        refine ⟨w, fw, ?_, ?_, hform⟩
        · rw [← hw]
          exact (List.getElem?_set_ne hne).symm
        · rw [hstep]
          exact hres

/-- On the constant-zero stream with at least two tokens available, the
selection loop never makes progress past the set `{0}`: every fuel amount
runs out. -/
theorem selectIndexes_const_zero_spins :
    ∀ fuel k acc, (acc = [] ∨ acc = [0]) →
      selectIndexes (fun _ => 0) 2 3 fuel acc k = none := by
  intro fuel
  induction fuel with
  | zero =>
    intro k acc hacc
    rcases hacc with h | h <;> subst h <;> rfl
  | succ fuel ih =>
    intro k acc hacc
    rcases hacc with h | h <;> subst h
    · have step : selectIndexes (fun _ => 0) 2 3 (fuel + 1) [] k =
          selectIndexes (fun _ => 0) 2 3 fuel [0] (k + 1) := rfl
      rw [step]
      exact ih (k + 1) [0] (Or.inr rfl)
    · have step : selectIndexes (fun _ => 0) 2 3 (fuel + 1) [0] k =
          selectIndexes (fun _ => 0) 2 3 fuel [0] (k + 1) := rfl
      rw [step]
      exact ih (k + 1) [0] (Or.inr rfl)

/-- Distinct offsets below `len`, shifted by the same base, have distinct
residues modulo `len`. -/
theorem mod_shift_ne {len i j k : Nat} (hij : i < j) (hjlen : j < len) :
    (k + i) % len ≠ (k + j) % len := by
  intro h
  have hm : Nat.ModEq len (k + i) (k + j) := h
  have hm2 : Nat.ModEq len i j := hm.add_left_cancel' k
  have hij2 : i % len = j % len := hm2
  rw [Nat.mod_eq_of_lt (by omega), Nat.mod_eq_of_lt hjlen] at hij2
  omega

/-- On the round-robin stream `fun n => n` the selection loop succeeds:
every draw until exit is fresh, so `min maxFW len` fuel suffices.  The
accumulator after `j` iterations is exactly the list of the first `j`
drawn residues. -/
theorem selectIndexes_id_go (len maxFW k : Nat) :
    ∀ f j, f + j = min maxFW len →
      ∃ idxs k',
        selectIndexes (fun n => n) len maxFW f
          ((List.range j).map (fun i => (k + i) % len)) (k + j) =
          some (idxs, k') := by
  intro f
  induction f with
  | zero =>
    intro j hj
    refine ⟨(List.range j).map (fun i => (k + i) % len), k + j, ?_⟩
    show (if ((List.range j).map (fun i => (k + i) % len)).length < maxFW ∧
        ((List.range j).map (fun i => (k + i) % len)).length < len
      then none
      else some ((List.range j).map (fun i => (k + i) % len), k + j)) =
      some ((List.range j).map (fun i => (k + i) % len), k + j)
    rw [if_neg (by simp only [List.length_map, List.length_range]; omega)]
  | succ f ih =>
    intro j hj
    have hjlt : j < min maxFW len := by omega
    have hcond : ((List.range j).map (fun i => (k + i) % len)).length < maxFW ∧
        ((List.range j).map (fun i => (k + i) % len)).length < len := by
      simp only [List.length_map, List.length_range]
      omega
    have hfresh : (fun n => n : Rng) (k + j) % len ∉
        (List.range j).map (fun i => (k + i) % len) := by
      intro hmem
      obtain ⟨i, hi, he⟩ := List.mem_map.mp hmem
      have hilt : i < j := List.mem_range.mp hi
      exact mod_shift_ne hilt (by omega) he
    have step : selectIndexes (fun n => n) len maxFW (f + 1)
        ((List.range j).map (fun i => (k + i) % len)) (k + j) =
        selectIndexes (fun n => n) len maxFW f
          ((List.range j).map (fun i => (k + i) % len) ++ [(k + j) % len])
          (k + j + 1) := by
      show (if _ ∧ _ then _ else _) = _
      rw [if_pos hcond]
      show selectIndexes (fun n => n) len maxFW f
        (if (k + j) % len ∈ (List.range j).map (fun i => (k + i) % len)
         then (List.range j).map (fun i => (k + i) % len)
         else (List.range j).map (fun i => (k + i) % len) ++ [(k + j) % len])
        (k + j + 1) = _
      rw [if_neg hfresh]
    have hacc : (List.range j).map (fun i => (k + i) % len) ++ [(k + j) % len] =
        (List.range (j + 1)).map (fun i => (k + i) % len) := by
      rw [List.range_succ, List.map_append]
      rfl
    rw [step, hacc, show k + j + 1 = k + (j + 1) from rfl]
    exact ih (j + 1) (by omega)

/-- With `min maxFW len` fuel, the round-robin stream drives the loop to a
normal exit from the empty set. -/
theorem selectIndexes_id_some (len maxFW k : Nat) :
    ∃ idxs k',
      selectIndexes (fun n => n) len maxFW (min maxFW len) [] k =
        some (idxs, k') := by
  have h := selectIndexes_id_go len maxFW k (min maxFW len) 0 (by omega)
  simpa using h

/-! ## Irrelevance of the `outputFormat` field -/

theorem sentenceLoop_outputFormat (s : Settings) (fmt : String) (σ : Rng) :
    ∀ r acc k, sentenceLoop { s with outputFormat := fmt } σ r acc k =
      sentenceLoop s σ r acc k := by
  intro r
  induction r using Nat.twoStepInduction with
  | zero => intro acc k; rfl
  | one => intro acc k; rfl
  | more r _ ih2 =>
    intro acc k
    have s1 : sentenceLoop { s with outputFormat := fmt } σ (r + 1 + 1) acc k =
        sentenceLoop { s with outputFormat := fmt } σ (r + 1)
          (acc ++ (getWord s σ k).1 ++
            (if (getRandomInt σ 0 s.commaRate (getWord s σ k).2).1 = 0
             then ", " else " "))
          (getRandomInt σ 0 s.commaRate (getWord s σ k).2).2 := rfl
    have s2 : sentenceLoop s σ (r + 1 + 1) acc k =
        sentenceLoop s σ (r + 1)
          (acc ++ (getWord s σ k).1 ++
            (if (getRandomInt σ 0 s.commaRate (getWord s σ k).2).1 = 0
             then ", " else " "))
          (getRandomInt σ 0 s.commaRate (getWord s σ k).2).2 := rfl
    rw [s1, s2]
    exact ih2 _ _

theorem getSentence_outputFormat (fuel : Nat) (s : Settings) (fmt : String)
    (lorem : Bool) (σ : Rng) (k : Nat) :
    getSentence fuel { s with outputFormat := fmt } lorem σ k =
      getSentence fuel s lorem σ k := by
  have hsl := sentenceLoop_outputFormat s fmt σ
  simp only [getSentence, hsl,
    show ∀ k2, drawWordsCount { s with outputFormat := fmt } σ k2 =
      drawWordsCount s σ k2 from fun _ => rfl,
    show ({ s with outputFormat := fmt }).injectStyling = s.injectStyling from rfl,
    show ∀ f s2 k2, injectFormatting f { s with outputFormat := fmt } s2 σ k2 =
      injectFormatting f s s2 σ k2 from fun _ _ _ => rfl]

theorem paragraphLoop_outputFormat (fuel : Nat) (s : Settings) (fmt : String)
    (σ : Rng) :
    ∀ n lorem acc k, paragraphLoop fuel { s with outputFormat := fmt } σ n lorem acc k =
      paragraphLoop fuel s σ n lorem acc k := by
  intro n
  induction n with
  | zero => intro lorem acc k; rfl
  | succ n ih =>
    intro lorem acc k
    simp only [paragraphLoop, getSentence_outputFormat, ih]

theorem getParagraph_outputFormat (fuel : Nat) (s : Settings) (fmt : String)
    (lorem : Bool) (wrap : String) (σ : Rng) (k : Nat) :
    getParagraph fuel { s with outputFormat := fmt } lorem wrap σ k =
      getParagraph fuel s lorem wrap σ k := by
  simp only [getParagraph, paragraphLoop_outputFormat,
    show ({ s with outputFormat := fmt }).paragraphMin = s.paragraphMin from rfl,
    show ({ s with outputFormat := fmt }).paragraphMax = s.paragraphMax from rfl]

theorem getOutput_outputFormat (fuel : Nat) (s : Settings) (fmt : String)
    (format : String) (limit : Int) (σ : Rng) (k : Nat) :
    getOutput fuel { s with outputFormat := fmt } format limit σ k =
      getOutput fuel s format limit σ k := by
  simp only [getOutput, getParagraph_outputFormat,
    show resolvedList { s with outputFormat := fmt } = resolvedList s from rfl]

/-! ## Claims -/

/-- C3: the vocabulary resolver maps `"latin"` to the latin list,
`"medieval"` to the medieval list, `"both"` to latin followed by medieval
(lengths add up); every other name — in fact anything that is neither
`"latin"` nor `"both"` — silently yields the medieval list, and the
resolver is a total function producing one of the three vocabularies for
every input name. -/
theorem c3_resolver :
    chooseWordList "latin" = latinWords
    ∧ chooseWordList "medieval" = medievalWords
    ∧ chooseWordList "both" = latinWords ++ medievalWords
    ∧ (chooseWordList "both").length =
        (chooseWordList "latin").length + (chooseWordList "medieval").length
    ∧ (∀ t : String, t ≠ "latin" → t ≠ "both" → chooseWordList t = medievalWords)
    ∧ (∀ t : String, chooseWordList t = latinWords ∨
        chooseWordList t = medievalWords ∨
        chooseWordList t = latinWords ++ medievalWords) := by
  refine ⟨rfl, rfl, rfl, by decide, ?_, chooseWordList_cases⟩
  intro t h1 h2
  unfold chooseWordList
  split <;> simp_all

/-- Witness for C3's universally quantified fallback clause at a concrete
unknown name. -/
theorem c3_witness :
    ("gothic" : String) ≠ "latin" ∧ ("gothic" : String) ≠ "both" ∧
      chooseWordList "gothic" = medievalWords :=
  ⟨by decide, by decide, c3_resolver.2.2.2.2.1 "gothic" (by decide) (by decide)⟩

/-- C10: the `outputFormat` configuration field is dead — `getOutput` (for
every format argument and limit), `getSentence`, `getParagraph` and
`getWord` produce identical results under the same random stream for any
two settings differing only in `outputFormat`. -/
theorem c10_outputFormat_dead (s : Settings) (fmt : String) (format : String)
    (limit : Int) (lorem : Bool) (wrap : String) (σ : Rng) (k fuel : Nat) :
    getOutput fuel { s with outputFormat := fmt } format limit σ k =
      getOutput fuel s format limit σ k
    ∧ getSentence fuel { s with outputFormat := fmt } lorem σ k =
      getSentence fuel s lorem σ k
    ∧ getParagraph fuel { s with outputFormat := fmt } lorem wrap σ k =
      getParagraph fuel s lorem wrap σ k
    ∧ getWord { s with outputFormat := fmt } σ k = getWord s σ k :=
  ⟨getOutput_outputFormat fuel s fmt format limit σ k,
   getSentence_outputFormat fuel s fmt lorem σ k,
   getParagraph_outputFormat fuel s fmt lorem wrap σ k,
   rfl⟩

/-- C6: the sentence loop emits, for each word position, the word followed
by exactly one separator: the period for the last position (recorded with
no comma draw), otherwise `", "` exactly when the fresh draw from
`[0, commaRate]` is zero and a single space otherwise — the loop equals the
flattened chunk list, which has one chunk per word, a comma draw on every
chunk but the last, and no draw (the period) on the last. -/
theorem c6_separators (g : Settings) (σ : Rng) (r : Nat) (acc : String) (k : Nat) :
    sentenceLoop g σ r acc k =
      (acc ++ concatChunks (sentenceChunks g σ r k).1, (sentenceChunks g σ r k).2)
    ∧ (sentenceChunks g σ r k).1.length = r
    ∧ (∀ p ∈ ((sentenceChunks g σ r k).1).dropLast, p.2.isSome = true)
    ∧ (1 ≤ r → ∃ w, ((sentenceChunks g σ r k).1).getLast? = some (w, none)) :=
  ⟨sentenceLoop_eq_chunks g σ r acc k, sentenceChunks_length g σ r k,
   sentenceChunks_dropLast g σ r k, sentenceChunks_getLast g σ r k⟩

/-- Witness for C6 at a concrete two-word sentence. -/
theorem c6_witness :
    (1 : Nat) ≤ 2 ∧
      ∃ w, ((sentenceChunks defaultSettings (fun _ => 0) 2 0).1).getLast? =
        some (w, none) :=
  ⟨by decide, (c6_separators defaultSettings (fun _ => 0) 2 "" 0).2.2.2 (by decide)⟩

/-- C5 is false as stated: with a configured cap `maxWords = 0` (falsy in
JS) the draw is not clamped — the word count is 3, not `min 3 0 = 0`. -/
theorem c5_counterexample :
    c5cfg.maxWords = some 0
    ∧ c5cfg.sentenceMin ≤ c5cfg.sentenceMax
    ∧ (drawWordsCount c5cfg (fun _ => 0) 0).1 = 3
    ∧ (3 : Nat) ≠ min 3 0 := by decide

/-- C5 (amended): the emitted word count is a draw `d` from
`[sentenceMin, sentenceMax]`, clamped to `min d m` exactly when a NONZERO
cap `m` is configured; a cap of `0` and an absent cap are both ignored
(JS falsiness).  The sentence loop then emits exactly that many words
(one chunk each). -/
theorem c5_amended (g : Settings) (σ : Rng) (k : Nat)
    (h : g.sentenceMin ≤ g.sentenceMax) :
    ∃ d, g.sentenceMin ≤ d ∧ d ≤ g.sentenceMax
      ∧ drawWordsCount g σ k = (effWordsCount g.maxWords d, k + 1)
      ∧ (∀ m, g.maxWords = some m → m ≠ 0 → effWordsCount g.maxWords d = min d m)
      ∧ (g.maxWords = none → effWordsCount g.maxWords d = d)
      ∧ (g.maxWords = some 0 → effWordsCount g.maxWords d = d)
      ∧ (sentenceChunks g σ ((drawWordsCount g σ k).1) (k + 1)).1.length =
          (drawWordsCount g σ k).1 := by
  refine ⟨g.sentenceMin + σ k % (g.sentenceMax - g.sentenceMin + 1),
    Nat.le_add_right _ _, ?_, rfl, ?_, ?_, ?_, sentenceChunks_length g σ _ _⟩
  · have hm := Nat.mod_lt (σ k)
      (show 0 < g.sentenceMax - g.sentenceMin + 1 by omega)
    omega
  · intro m hm hm0
    unfold effWordsCount
    rw [hm]
    simp [hm0]
  · intro hm
    unfold effWordsCount
    rw [hm]
  · intro hm
    unfold effWordsCount
    rw [hm]
    simp

/-- Witness for C5 (amended) at the default settings and the zero stream. -/
theorem c5_witness :
    defaultSettings.sentenceMin ≤ defaultSettings.sentenceMax ∧
      ∃ d, defaultSettings.sentenceMin ≤ d ∧ d ≤ defaultSettings.sentenceMax
        ∧ drawWordsCount defaultSettings (fun _ => 0) 0 =
            (effWordsCount defaultSettings.maxWords d, 0 + 1)
        ∧ (∀ m, defaultSettings.maxWords = some m → m ≠ 0 →
            effWordsCount defaultSettings.maxWords d = min d m)
        ∧ (defaultSettings.maxWords = none →
            effWordsCount defaultSettings.maxWords d = d)
        ∧ (defaultSettings.maxWords = some 0 →
            effWordsCount defaultSettings.maxWords d = d)
        ∧ (sentenceChunks defaultSettings (fun _ => 0)
            ((drawWordsCount defaultSettings (fun _ => 0) 0).1) (0 + 1)).1.length =
            (drawWordsCount defaultSettings (fun _ => 0) 0).1 :=
  ⟨by decide, c5_amended defaultSettings (fun _ => 0) 0 (by decide)⟩

/-- For a non-negative end index, JS `slice(0, e)` is a plain prefix. -/
theorem jsSlice_nonneg (l : List String) (e : Int) (h : 0 ≤ e) :
    jsSlice l e = l.take e.toNat := by
  unfold jsSlice
  rw [if_neg (by omega)]

/-- C1 is false as stated over every integer limit: at `limit = -1` the
code returns all but the last vocabulary entry (JS `slice` counts a
negative end from the end of the array), which is neither "the first `-1`
entries" (an empty prefix under any clamping reading) nor the full
vocabulary. -/
theorem c1_counterexample :
    getOutput 0 (handlerSettings "medieval") "array" (-1) (fun _ => 0) 0 =
      some (.arr ["knight", "castle", "quest"], 0)
    ∧ Output.arr ["knight", "castle", "quest"] ≠
        .arr ((resolvedList (handlerSettings "medieval")).take ((-1 : Int)).toNat)
    ∧ Output.arr ["knight", "castle", "quest"] ≠
        .arr (resolvedList (handlerSettings "medieval")) := by decide

/-- C1 (amended): for every resolved vocabulary and every NON-NEGATIVE
integer limit, `getOutput 'array'` returns the full vocabulary at limit 0
and otherwise its first `limit` entries (fewer when the vocabulary is
shorter); `getOutput 'hash'` applies the same slicing and keys entry `i`
with the decimal string of `i`; neither consults the random stream or
advances it (deterministic). -/
theorem c1_array_hash (g : Settings) (limit : Int) (σ : Rng) (k fuel : Nat)
    (h : 0 ≤ limit) :
    getOutput fuel g "array" limit σ k =
      some (.arr (if limit = 0 then resolvedList g
                  else (resolvedList g).take limit.toNat), k)
    ∧ getOutput fuel g "hash" limit σ k =
      some (.hash (hashOf (if limit = 0 then resolvedList g
                           else (resolvedList g).take limit.toNat)), k)
    ∧ (∀ (l : List String) (i : Nat),
        (hashOf l)[i]? = (l[i]?).map (fun w => (toString i, w)))
    ∧ (∀ σ2 : Rng,
        getOutput fuel g "array" limit σ2 k = getOutput fuel g "array" limit σ k
        ∧ getOutput fuel g "hash" limit σ2 k = getOutput fuel g "hash" limit σ k) := by
  have harr : ∀ σ2 : Rng, getOutput fuel g "array" limit σ2 k =
      some (.arr (if limit = 0 then resolvedList g
                  else jsSlice (resolvedList g) limit), k) := fun _ => rfl
  have hhash : ∀ σ2 : Rng, getOutput fuel g "hash" limit σ2 k =
      some (.hash (if limit = 0 then hashOf (resolvedList g)
                   else hashOf (jsSlice (resolvedList g) limit)), k) := fun _ => rfl
  refine ⟨?_, ?_, ?_, ?_⟩
  · rw [harr σ, jsSlice_nonneg _ _ h]
  · rw [hhash σ, jsSlice_nonneg _ _ h]
    by_cases h0 : limit = 0 <;> simp [h0]
  · intro l i
    unfold hashOf
    rw [List.getElem?_map, List.getElem?_enum]
    cases l[i]? <;> rfl
  · intro σ2
    rw [harr σ, harr σ2, hhash σ, hhash σ2]
    exact ⟨rfl, rfl⟩

/-- Witness for C1 (amended) at `limit = 3` over the latin vocabulary. -/
theorem c1_witness :
    (0 : Int) ≤ 3 ∧
      (getOutput 0 (handlerSettings "latin") "array" 3 (fun _ => 0) 0 =
        some (.arr (if (3 : Int) = 0 then resolvedList (handlerSettings "latin")
                    else (resolvedList (handlerSettings "latin")).take (3 : Int).toNat), 0)
      ∧ getOutput 0 (handlerSettings "latin") "hash" 3 (fun _ => 0) 0 =
        some (.hash (hashOf (if (3 : Int) = 0 then resolvedList (handlerSettings "latin")
                             else (resolvedList (handlerSettings "latin")).take (3 : Int).toNat)), 0)
      ∧ (∀ (l : List String) (i : Nat),
          (hashOf l)[i]? = (l[i]?).map (fun w => (toString i, w)))
      ∧ (∀ σ2 : Rng,
          getOutput 0 (handlerSettings "latin") "array" 3 σ2 0 =
            getOutput 0 (handlerSettings "latin") "array" 3 (fun _ => 0) 0
          ∧ getOutput 0 (handlerSettings "latin") "hash" 3 σ2 0 =
            getOutput 0 (handlerSettings "latin") "hash" 3 (fun _ => 0) 0)) :=
  ⟨by decide, c1_array_hash (handlerSettings "latin") 3 (fun _ => 0) 0 0 (by decide)⟩

/-- C2 is false as stated: with `sentence.min = sentence.max = 0` (allowed,
`min ≤ max`) and no Lorem prefix the composed sentence is the empty string,
which neither ends in a period nor starts with an uppercase character. -/
theorem c2_counterexample :
    c2cfg.sentenceMin ≤ c2cfg.sentenceMax
    ∧ getSentence 0 c2cfg false (fun _ => 0) 0 = some ("", 1)
    ∧ ¬ endsInPeriod ""
    ∧ startsUpper "" = false := by decide

/-- C2 (amended): for every configuration with `1 ≤ sentence.min ≤
sentence.max`, styling injection off, and a vocabulary of words starting
with lowercase ASCII letters, `getSentence` succeeds and its result ends in
a period and starts with an uppercase character (with the Lorem prefix the
leading character is the literal uppercase 'L'). -/
theorem c2_sentence_shape (fuel : Nat) (g : Settings) (lorem : Bool)
    (σ : Rng) (k : Nat)
    (h1 : 1 ≤ g.sentenceMin) (h2 : g.sentenceMin ≤ g.sentenceMax)
    (h3 : g.injectStyling = false)
    (hw : ∀ w ∈ resolvedList g, goodWord w = true) :
    ∃ out k2, getSentence fuel g lorem σ k = some (out, k2)
      ∧ endsInPeriod out ∧ startsUpper out = true :=
  getSentence_ok fuel g lorem σ k h1 h2 h3 hw

/-- Witness for C2 (amended) at the default settings. -/
theorem c2_witness :
    (1 ≤ defaultSettings.sentenceMin
      ∧ defaultSettings.sentenceMin ≤ defaultSettings.sentenceMax
      ∧ defaultSettings.injectStyling = false
      ∧ ∀ w ∈ resolvedList defaultSettings, goodWord w = true) ∧
    ∃ out k2, getSentence 0 defaultSettings true (fun _ => 0) 0 = some (out, k2)
      ∧ endsInPeriod out ∧ startsUpper out = true :=
  ⟨⟨by decide, by decide, by decide, by decide⟩,
   c2_sentence_shape 0 defaultSettings true (fun _ => 0) 0 (by decide) (by decide)
     (by decide) (by decide)⟩

/-- C9 is false as stated: on the adversarial stream that always draws 0,
a two-token sentence under the default `maxFormattedWords = 3` keeps the
set stuck at `{0}` — no amount of fuel makes the selection loop exit, and
the styling injector never completes. -/
theorem c9_counterexample :
    (¬ selTerminates (fun _ => 0) 2 3 0)
    ∧ (∀ fuel : Nat,
        injectFormatting fuel defaultSettings "a b" (fun _ => 0) 0 = none) := by
  constructor
  · rintro ⟨fuel, idxs, k', h⟩
    rw [selectIndexes_const_zero_spins fuel 0 [] (Or.inl rfl)] at h
    exact Option.noConfusion h
  · intro fuel
    have hnone : selectIndexes (fun _ => 0) (jsSplit "a b").length
        defaultSettings.maxFormattedWords fuel [] 0 = none :=
      selectIndexes_const_zero_spins fuel 0 [] (Or.inl rfl)
    simp only [injectFormatting]
    rw [hnone]

/-- C9 (amended): whenever the selection loop does exit it has selected
exactly `min maxFormattedWords tokenCount` distinct in-range indices — it
stops once the set reaches `maxFormattedWords` or covers all tokens — and
termination does hold for fair streams: the round-robin stream exits with
`min maxFW len` fuel for every token count and bound.  (Termination for
EVERY stream is refuted by the counterexample.) -/
theorem c9_selection (len maxFW k : Nat) :
    (∀ (σ : Rng) (fuel : Nat) (idxs : List Nat) (k2 : Nat),
      selectIndexes σ len maxFW fuel [] k = some (idxs, k2) →
        idxs.Nodup ∧ (∀ i ∈ idxs, i < len) ∧ idxs.length = min maxFW len)
    ∧ (∃ idxs k2,
        selectIndexes (fun n => n) len maxFW (min maxFW len) [] k =
          some (idxs, k2)) := by
  constructor
  · intro σ fuel idxs k2 hsel
    exact selectIndexes_ok σ len maxFW fuel [] k idxs k2 List.nodup_nil
      (by simp) (by simp) (by simp) hsel
  · exact selectIndexes_id_some len maxFW k

/-- Witness for C9 (amended): a concrete exit of the selection loop. -/
theorem c9_witness :
    selectIndexes (fun n => n) 2 1 5 [] 0 = some ([0], 1) ∧
      ([0] : List Nat).Nodup ∧ (∀ i ∈ ([0] : List Nat), i < 2) ∧
        ([0] : List Nat).length = min 1 2 :=
  ⟨by decide, (c9_selection 2 1 0).1 (fun n => n) 5 [0] 1 (by decide)⟩

/-- C7: `getParagraph` draws the sentence count `n` from
`[paragraphMin, paragraphMax]`, composes exactly `n` sentences passing the
Lorem flag only to the first (false thereafter, per `sentencesList`), joins
them with single spaces with no trailing space, and wraps the whole result
in the literal `<tag>...</tag>` pair exactly when the tag is non-empty. -/
theorem c7_paragraph (fuel : Nat) (g : Settings) (lorem : Bool) (wrap : String)
    (σ : Rng) (k : Nat) (h : g.paragraphMin ≤ g.paragraphMax) :
    ∃ n, n = (getRandomInt σ g.paragraphMin g.paragraphMax k).1
      ∧ g.paragraphMin ≤ n ∧ n ≤ g.paragraphMax
      ∧ getParagraph fuel g lorem wrap σ k =
          (sentencesList fuel g σ n lorem (k + 1)).map
            (fun p => (if wrap = "" then joinSpace p.1
                       else "<" ++ wrap ++ ">" ++ joinSpace p.1 ++ "</" ++ wrap ++ ">",
                       p.2))
      ∧ (∀ ss k2, sentencesList fuel g σ n lorem (k + 1) = some (ss, k2) →
          ss.length = n) := by
  refine ⟨(getRandomInt σ g.paragraphMin g.paragraphMax k).1, rfl,
    Nat.le_add_right _ _, ?_, ?_,
    fun ss k2 hss => sentencesList_length fuel g σ _ lorem (k + 1) ss k2 hss⟩
  · have hm := Nat.mod_lt (σ k)
      (show 0 < g.paragraphMax - g.paragraphMin + 1 by omega)
    show g.paragraphMin + σ k % (g.paragraphMax - g.paragraphMin + 1) ≤
      g.paragraphMax
    omega
  · have h1 : getParagraph fuel g lorem wrap σ k =
        match paragraphLoop fuel g σ
            ((getRandomInt σ g.paragraphMin g.paragraphMax k).1) lorem "" (k + 1) with
        | none => none
        | some (p, k2) =>
          some (if wrap = "" then p
                else "<" ++ wrap ++ ">" ++ p ++ "</" ++ wrap ++ ">", k2) := rfl
    rw [h1, paragraphLoop_eq_sentencesList]
    cases hsl : sentencesList fuel g σ
        ((getRandomInt σ g.paragraphMin g.paragraphMax k).1) lorem (k + 1) with
    | none => rfl
    | some v =>
      obtain ⟨ss, k2⟩ := v
      simp only [Option.map_some, String.empty_append]
      by_cases hwrap : wrap = "" <;> simp [hwrap]

/-- Witness for C7 at the default settings with wrap tag `"p"`. -/
theorem c7_witness :
    defaultSettings.paragraphMin ≤ defaultSettings.paragraphMax ∧
      ∃ n, n = (getRandomInt (fun _ => 0) defaultSettings.paragraphMin
                  defaultSettings.paragraphMax 0).1
        ∧ defaultSettings.paragraphMin ≤ n ∧ n ≤ defaultSettings.paragraphMax
        ∧ getParagraph 0 defaultSettings false "p" (fun _ => 0) 0 =
            (sentencesList 0 defaultSettings (fun _ => 0) n false (0 + 1)).map
              (fun p => (if ("p" : String) = "" then joinSpace p.1
                         else "<" ++ "p" ++ ">" ++ joinSpace p.1 ++ "</" ++ "p" ++ ">",
                         p.2))
        ∧ (∀ ss k2, sentencesList 0 defaultSettings (fun _ => 0) n false (0 + 1) =
            some (ss, k2) → ss.length = n) :=
  ⟨by decide, c7_paragraph 0 defaultSettings false "p" (fun _ => 0) 0 (by decide)⟩

/-- C8: whenever the styling injector completes, it has wrapped a
duplicate-free set of exactly `min maxFormattedWords tokenCount` token
positions (so never more than either bound), each wrapped token is one of
the three markup shapes around the original space-delimited token
(punctuation included), all other tokens are unchanged, and the output is
the tokens rejoined with single spaces. -/
theorem c8_styling (fuel : Nat) (g : Settings) (sentence : String) (σ : Rng)
    (k : Nat) (out : String) (k2 : Nat)
    (h : injectFormatting fuel g sentence σ k = some (out, k2)) :
    ∃ (idxs : List Nat) (words2 : List String),
      idxs.Nodup
      ∧ idxs.length = min g.maxFormattedWords (jsSplit sentence).length
      ∧ (∀ i ∈ idxs, i < (jsSplit sentence).length)
      ∧ words2.length = (jsSplit sentence).length
      ∧ (∀ j, j ∉ idxs → words2[j]? = (jsSplit sentence)[j]?)
      ∧ (∀ i ∈ idxs, ∃ w fw, (jsSplit sentence)[i]? = some w
          ∧ words2[i]? = some fw ∧ isFormOf w fw)
      ∧ out = String.intercalate " " words2 := by
  simp only [injectFormatting] at h
  cases hsel : selectIndexes σ (jsSplit sentence).length
      g.maxFormattedWords fuel [] k with
  | none =>
    rw [hsel] at h
    have h2 : (none : Option (String × Nat)) = some (out, k2) := h
    exact Option.noConfusion h2
  | some v =>
    obtain ⟨idxs, k1⟩ := v
    rw [hsel] at h
    have h2 : (some (String.intercalate " "
        (applyFormats σ (jsSplit sentence) idxs k1).1,
        (applyFormats σ (jsSplit sentence) idxs k1).2) :
        Option (String × Nat)) = some (out, k2) := h
    obtain ⟨hnd, hbound, hlen⟩ := selectIndexes_ok σ (jsSplit sentence).length
      g.maxFormattedWords fuel [] k idxs k1 List.nodup_nil
      (by simp) (by simp) (by simp) hsel
    obtain ⟨hlen2, hother, hselw⟩ := applyFormats_ok σ idxs (jsSplit sentence) k1 hnd
    simp only [Option.some.injEq, Prod.mk.injEq] at h2
    refine ⟨idxs, (applyFormats σ (jsSplit sentence) idxs k1).1,
      hnd, hlen, hbound, hlen2, hother, ?_, h2.1.symm⟩
    intro i hi
    exact hselw i hi (hbound i hi)

/-- Witness for C8 at a concrete completed run of the injector. -/
theorem c8_witness :
    injectFormatting 1 c8cfg "ab cd" (fun _ => 0) 0 =
      some ("<strong>ab</strong> cd", 2) ∧
    ∃ (idxs : List Nat) (words2 : List String),
      idxs.Nodup
      ∧ idxs.length = min c8cfg.maxFormattedWords (jsSplit "ab cd").length
      ∧ (∀ i ∈ idxs, i < (jsSplit "ab cd").length)
      ∧ words2.length = (jsSplit "ab cd").length
      ∧ (∀ j, j ∉ idxs → words2[j]? = (jsSplit "ab cd")[j]?)
      ∧ (∀ i ∈ idxs, ∃ w fw, (jsSplit "ab cd")[i]? = some w
          ∧ words2[i]? = some fw ∧ isFormOf w fw)
      ∧ "<strong>ab</strong> cd" = String.intercalate " " words2 :=
  ⟨by decide,
   c8_styling 1 c8cfg "ab cd" (fun _ => 0) 0 "<strong>ab</strong> cd" 2 (by decide)⟩

/-- C4: for the generator the HTTP handler constructs (defaults with only
the vocabulary name overridden), `getOutput 'string'` ignores its limit
entirely — any two limits give identical results under the same stream —
and equals composing one paragraph with no Lorem prefix and no wrap tag;
the result is a non-empty string containing at least one period. -/
theorem c4_string_output (wl : String) (n1 n2 : Int) (σ : Rng) (k fuel : Nat) :
    getOutput fuel (handlerSettings wl) "string" n1 σ k =
      getOutput fuel (handlerSettings wl) "string" n2 σ k
    ∧ ∃ p k1, getParagraph fuel (handlerSettings wl) false "" σ k = some (p, k1)
      ∧ getOutput fuel (handlerSettings wl) "string" n1 σ k = some (.str p, k1)
      ∧ p ≠ "" ∧ '.' ∈ p.data := by
  constructor
  · rfl
  · obtain ⟨p, k1, hpl, t, hdata, hdot⟩ :=
      paragraphLoop_ok fuel (handlerSettings wl) σ
        (by decide : (1 : Nat) ≤ 2) (by decide : (2 : Nat) ≤ 15)
        rfl (resolvedList_good _)
        ((getRandomInt σ (handlerSettings wl).paragraphMin
          (handlerSettings wl).paragraphMax k).1) false "" (k + 1)
    have hval : getParagraph fuel (handlerSettings wl) false "" σ k =
        some (p, k1) := by
      have h1 : getParagraph fuel (handlerSettings wl) false "" σ k =
          match paragraphLoop fuel (handlerSettings wl) σ
              ((getRandomInt σ (handlerSettings wl).paragraphMin
                (handlerSettings wl).paragraphMax k).1) false "" (k + 1) with
          | none => none
          | some (p, k2) =>
            some (if ("" : String) = "" then p
                  else "<" ++ "" ++ ">" ++ p ++ "</" ++ "" ++ ">", k2) := rfl
      rw [h1, hpl]
      rfl
    have hn : 1 ≤ (getRandomInt σ (handlerSettings wl).paragraphMin
        (handlerSettings wl).paragraphMax k).1 := by
      show 1 ≤ (handlerSettings wl).paragraphMin +
        σ k % ((handlerSettings wl).paragraphMax -
          (handlerSettings wl).paragraphMin + 1)
      have : (handlerSettings wl).paragraphMin = 3 := rfl
      omega
    have hdot2 : '.' ∈ p.data := by
      rw [hdata]
      simp only [List.mem_append]
      exact Or.inr (hdot hn)
    refine ⟨p, k1, hval, ?_, ?_, hdot2⟩
    · have h2 : getOutput fuel (handlerSettings wl) "string" n1 σ k =
          match getParagraph fuel (handlerSettings wl) false "" σ k with
          | none => none
          | some (p, k3) => some (.str p, k3) := rfl
      rw [h2, hval]
    · intro he
      subst he
      simp at hdot2
